import Mathlib

/-!
Shallow embedding of `src/skg/gauss.py` (scikit-guess): the closed-form
Gaussian bell-curve fitter `gauss_fit` and the forward evaluator `model`.

Real numbers stand for IEEE doubles.  A value of type `RF` (`Option ℝ`)
models a double that is either a finite real (`some r`) or non-finite
(`none`, covering NaN and ±∞): `numpy` produces NaN from `sqrt` of a
negative argument and NaN/±∞ from division by zero, and every arithmetic
operation propagates non-finiteness.  The two-column least-squares solve
(`scipy.linalg.lstsq`) is modelled by its normal-equations solution in the
full-rank case; the rank-deficient branch (minimum-norm solution) is left
unmodelled (`none`).
-/

namespace SkgGauss

/-- Embeds `numpy.diff`: differences of consecutive elements, `l[1:] - l[:-1]`. -/
def diffL (l : List ℝ) : List ℝ := List.zipWith (fun a b => a - b) l.tail l

/-- Embeds `numpy.cumsum`: running partial sums. -/
def cumsumL : List ℝ → List ℝ
  | [] => []
  | a :: r => a :: (cumsumL r).map (fun t => a + t)

/-- Dot product of two real lists (`numpy.dot` on equal-length vectors). -/
def dotL (a b : List ℝ) : ℝ := (List.zipWith (fun s t => s * t) a b).sum

/-- A double that is either a finite real (`some`) or non-finite, i.e. NaN
or ±∞ (`none`). -/
abbrev RF : Type := Option ℝ

/-- Subtraction on doubles; non-finite operands propagate. -/
def rfSub : RF → RF → RF
  | some a, some b => some (a - b)
  | _, _ => none

/-- Addition on doubles; non-finite operands propagate. -/
def rfAdd : RF → RF → RF
  | some a, some b => some (a + b)
  | _, _ => none

/-- Multiplication on doubles; non-finite operands propagate. -/
def rfMul : RF → RF → RF
  | some a, some b => some (a * b)
  | _, _ => none

/-- Division on doubles: division by zero yields a non-finite result
(NaN for `0/0`, ±∞ otherwise), and non-finite operands propagate. -/
noncomputable def rfDiv : RF → RF → RF
  | some a, some b => if b = 0 then none else some (a / b)
  | _, _ => none

/-- Embeds `numpy.sqrt` on doubles: a negative argument yields NaN (`none`). -/
noncomputable def rfSqrt : RF → RF
  | some a => if a < 0 then none else some (Real.sqrt a)
  | none => none

/-- Embeds `numpy.exp` on doubles; a non-finite argument propagates. -/
noncomputable def rfExp : RF → RF
  | some a => some (Real.exp a)
  | none => none

/-- Dot product on lists of doubles, propagating non-finite entries. -/
def rfDot (a b : List RF) : RF := (List.zipWith rfMul a b).foldr rfAdd (some 0)

/-- Embeds `d = 0.5 * diff(x)` from `gauss_fit` (trapezoid half-widths). -/
noncomputable def halfDiff (x : List ℝ) : List ℝ := (diffL x).map (fun t => 0.5 * t)

/-- Embeds `xy = x * y` from `gauss_fit` (pointwise product). -/
def xyL (x y : List ℝ) : List ℝ := List.zipWith (fun a b => a * b) x y

/-- Builds `(w[1:] + w[:-1]) * d`: the trapezoid-rule increments fed to `cumsum`. -/
noncomputable def trapTerms (w d : List ℝ) : List ℝ :=
  List.zipWith (fun a b => a * b) (List.zipWith (fun a b => a + b) w.tail w) d

/-- First design column `a1[:, 0] = [0, cumsum((y[1:] + y[:-1]) * d)]`. -/
noncomputable def designU (x y : List ℝ) : List ℝ :=
  0 :: cumsumL (trapTerms y (halfDiff x))

/-- Second design column `a1[:, 1] = [0, cumsum((xy[1:] + xy[:-1]) * d)]`. -/
noncomputable def designV (x y : List ℝ) : List ℝ :=
  0 :: cumsumL (trapTerms (xyL x y) (halfDiff x))

/-- Target vector `b1 = y - y[0]`. -/
noncomputable def targetB (y : List ℝ) : List ℝ := y.map (fun t => t - y.headD 0)

/-- Gram entry `u · u` of the design matrix. -/
noncomputable def uuG (x y : List ℝ) : ℝ := dotL (designU x y) (designU x y)

/-- Gram entry `u · v` of the design matrix. -/
noncomputable def uvG (x y : List ℝ) : ℝ := dotL (designU x y) (designV x y)

/-- Gram entry `v · v` of the design matrix. -/
noncomputable def vvG (x y : List ℝ) : ℝ := dotL (designV x y) (designV x y)

/-- Moment `u · b` of the design matrix against the target. -/
noncomputable def ubG (x y : List ℝ) : ℝ := dotL (designU x y) (targetB y)

/-- Moment `v · b` of the design matrix against the target. -/
noncomputable def vbG (x y : List ℝ) : ℝ := dotL (designV x y) (targetB y)

/-- Determinant of the 2×2 Gram matrix of the design columns. -/
noncomputable def detG (x y : List ℝ) : ℝ :=
  uuG x y * vvG x y - uvG x y * uvG x y

/-- First normal-equations (Cramer) coefficient of the least-squares solve. -/
noncomputable def Aval (x y : List ℝ) : ℝ :=
  (ubG x y * vvG x y - vbG x y * uvG x y) / detG x y

/-- Second normal-equations (Cramer) coefficient of the least-squares solve. -/
noncomputable def Bval (x y : List ℝ) : ℝ :=
  (uuG x y * vbG x y - uvG x y * ubG x y) / detG x y

/-- Models `scipy.linalg.lstsq` on the two-column system `a1 @ (A, B) = b1`:
in the full-rank case (nonzero Gram determinant) it returns the unique
least-squares solution, obtained from the normal equations; the
rank-deficient branch (minimum-norm solution) is not modelled and yields
`none`. -/
noncomputable def lstsq2 (x y : List ℝ) : Option (ℝ × ℝ) :=
  if detG x y = 0 then none else some (Aval x y, Bval x y)

/-- Embedding of `gauss_fit(x, y)` (the `sorted=True` path, after
`preprocess` has flattened the inputs): builds the trapezoidal design
columns, solves the two-column least squares, recovers
`mu = -A / B`, `sigma = sqrt(-1.0 / B)`, and projects the amplitude
`amp = y.dot(a2) / a2.dot(a2)` with `a2 = exp(-0.5 * ((x - mu) / sigma)**2)`.
The code performs no validity checks: NaN/∞ (`none`) flows through. -/
noncomputable def gaussFit (x y : List ℝ) : Option (RF × RF × RF) :=
  match lstsq2 x y with
  | none => none
  | some (A, B) =>
      let mu : RF := rfDiv (some (-A)) (some B)
      let sigma : RF := rfSqrt (rfDiv (some (-1)) (some B))
      let a2 : List RF := x.map (fun t =>
        rfExp (rfMul (some (-0.5))
          (rfMul (rfDiv (rfSub (some t) mu) sigma) (rfDiv (rfSub (some t) mu) sigma))))
      let amp : RF := rfDiv (rfDot (y.map some) a2) (rfDot a2 a2)
      some (amp, mu, sigma)

/-- Embedding of `model(x, a, mu, sigma) = a * exp(-0.5 * ((x - mu) / sigma)**2)`. -/
noncomputable def modelL (x : List ℝ) (a mu sigma : ℝ) : List ℝ :=
  x.map (fun t => a * Real.exp (-0.5 * (((t - mu) / sigma) ^ 2)))

/-- The mean recovered on the good path: `mu = -A / B`. -/
noncomputable def muVal (x y : List ℝ) : ℝ := -(Aval x y) / Bval x y

/-- The standard deviation recovered on the good path: `sigma = sqrt(-1 / B)`. -/
noncomputable def sigVal (x y : List ℝ) : ℝ := Real.sqrt ((-1) / Bval x y)

/-- The trial curve `a2 = exp(-0.5 * ((x - mu) / sigma)**2)` as finite reals. -/
noncomputable def gList (x : List ℝ) (mu s : ℝ) : List ℝ :=
  x.map (fun t => Real.exp (-0.5 * (((t - mu) / s) * ((t - mu) / s))))

/-- The amplitude recovered on the good path:
`amp = y.dot(a2) / a2.dot(a2)`. -/
noncomputable def ampVal (x y : List ℝ) : ℝ :=
  dotL y (gList x (muVal x y) (sigVal x y)) /
    dotL (gList x (muVal x y) (sigVal x y)) (gList x (muVal x y) (sigVal x y))

/-- Residual vector `b - (A • u + B • v)` of a generic two-column system. -/
noncomputable def residGen (u v b : List ℝ) (A B : ℝ) : List ℝ :=
  List.zipWith (fun s t => s - t) b
    (List.zipWith (fun s t => s + t) (u.map (fun t => A * t)) (v.map (fun t => B * t)))

/-- Residual vector of the `gauss_fit` linear system at coefficients `(A, B)`. -/
noncomputable def residL (x y : List ℝ) (A B : ℝ) : List ℝ :=
  residGen (designU x y) (designV x y) (targetB y) A B

/-- Squared residual norm of the `gauss_fit` linear system at `(A, B)`. -/
noncomputable def lsObj (x y : List ℝ) (A B : ℝ) : ℝ :=
  dotL (residL x y A B) (residL x y A B)

/-- Spec recurrence for the first design column: `S_y[0] = 0`,
`S_y[i] = S_y[i-1] + (y_i + y_{i-1}) * d_{i-1}` with
`d_i = 0.5 * (x_{i+1} - x_i)`. -/
noncomputable def specSy (x y : List ℝ) : ℕ → ℝ
  | 0 => 0
  | i + 1 => specSy x y i +
      (y.getD (i + 1) 0 + y.getD i 0) * (0.5 * (x.getD (i + 1) 0 - x.getD i 0))

/-- Spec recurrence for the second design column: `S_xy[0] = 0`,
`S_xy[i] = S_xy[i-1] + (xy_i + xy_{i-1}) * d_{i-1}` with `xy_i = x_i * y_i`. -/
noncomputable def specSxy (x y : List ℝ) : ℕ → ℝ
  | 0 => 0
  | i + 1 => specSxy x y i +
      (x.getD (i + 1) 0 * y.getD (i + 1) 0 + x.getD i 0 * y.getD i 0) *
        (0.5 * (x.getD (i + 1) 0 - x.getD i 0))

/-! ### Basic list lemmas -/

theorem getD_zipWith (f : ℝ → ℝ → ℝ) (a b : List ℝ) (i : ℕ)
    (ha : i < a.length) (hb : i < b.length) :
    (List.zipWith f a b).getD i 0 = f (a.getD i 0) (b.getD i 0) := by
  induction a generalizing b i with
  | nil => simp at ha
  | cons a0 a' ih =>
      cases b with
      | nil => simp at hb
      | cons b0 b' =>
          cases i with
          | zero => rfl
          | succ j =>
              simp only [List.zipWith_cons_cons, List.getD_cons_succ]
              exact ih b' j (by simpa using ha) (by simpa using hb)

theorem getD_map (f : ℝ → ℝ) (l : List ℝ) (i : ℕ) (h : i < l.length) :
    (l.map f).getD i 0 = f (l.getD i 0) := by
  induction l generalizing i with
  | nil => simp at h
  | cons a l' ih =>
      cases i with
      | zero => rfl
      | succ j =>
          simp only [List.map_cons, List.getD_cons_succ]
          exact ih j (by simpa using h)

theorem getD_tail (l : List ℝ) (i : ℕ) : l.tail.getD i 0 = l.getD (i + 1) 0 := by
  cases l <;> rfl

theorem getD_reverse (l : List ℝ) (i : ℕ) (h : i < l.length) :
    l.reverse.getD i 0 = l.getD (l.length - 1 - i) 0 := by
  have h' : i < l.reverse.length := by simpa using h
  rw [List.getD_eq_getElem _ _ h', List.getElem_reverse h',
    List.getD_eq_getElem _ _ (by omega)]

theorem getD_replicate_zero (n i : ℕ) : (List.replicate n (0 : ℝ)).getD i 0 = 0 := by
  induction n generalizing i with
  | zero => simp
  | succ m ih => cases i <;> simp [List.replicate, ih]

theorem headD_eq_getD (l : List ℝ) : l.headD 0 = l.getD 0 0 := by
  cases l <;> rfl

theorem length_cumsumL (l : List ℝ) : (cumsumL l).length = l.length := by
  induction l with
  | nil => rfl
  | cons a r ih => simp [cumsumL, ih]

theorem cumsumL_getD_zero (l : List ℝ) : (cumsumL l).getD 0 0 = l.getD 0 0 := by
  cases l <;> rfl

theorem cumsumL_getD_succ (l : List ℝ) (i : ℕ) (h : i + 1 < l.length) :
    (cumsumL l).getD (i + 1) 0 = (cumsumL l).getD i 0 + l.getD (i + 1) 0 := by
  induction l generalizing i with
  | nil => simp at h
  | cons a r ih =>
      cases i with
      | zero =>
          cases r with
          | nil => simp at h
          | cons b r' =>
              simp [cumsumL, cumsumL_getD_zero]
      | succ j =>
          have hj : j + 1 < r.length := by simpa using h
          have hlen : j + 1 < (cumsumL r).length := by
            rw [length_cumsumL]; exact hj
          have hlen' : j < (cumsumL r).length := by omega
          simp only [cumsumL, List.getD_cons_succ]
          rw [getD_map _ _ _ hlen, getD_map _ _ _ hlen', ih j hj]
          ring

/-! ### Dot-product lemmas -/

theorem dotL_nil_left (b : List ℝ) : dotL [] b = 0 := rfl

theorem dotL_nil_right (a : List ℝ) : dotL a [] = 0 := by
  cases a <;> rfl

theorem dotL_cons (a0 b0 : ℝ) (a b : List ℝ) :
    dotL (a0 :: a) (b0 :: b) = a0 * b0 + dotL a b := rfl

theorem dotL_comm (a b : List ℝ) : dotL a b = dotL b a := by
  induction a generalizing b with
  | nil => simp [dotL_nil_left, dotL_nil_right]
  | cons a0 a' ih =>
      cases b with
      | nil => simp [dotL_nil_left, dotL_nil_right]
      | cons b0 b' => simp [dotL_cons, ih, mul_comm]

theorem dotL_self_nonneg (l : List ℝ) : 0 ≤ dotL l l := by
  induction l with
  | nil => simp [dotL_nil_left]
  | cons a l' ih => rw [dotL_cons]; nlinarith [mul_self_nonneg a]

theorem dotL_self_pos (l : List ℝ) (hne : l ≠ []) (hpos : ∀ t ∈ l, 0 < t) :
    0 < dotL l l := by
  cases l with
  | nil => exact absurd rfl hne
  | cons a l' =>
      rw [dotL_cons]
      have ha : 0 < a := hpos a (List.mem_cons_self a l')
      nlinarith [dotL_self_nonneg l']

theorem dotL_map_mul_left (c : ℝ) (a b : List ℝ) :
    dotL (a.map (fun t => c * t)) b = c * dotL a b := by
  induction a generalizing b with
  | nil => simp [dotL_nil_left]
  | cons a0 a' ih =>
      cases b with
      | nil => simp [dotL_nil_right]
      | cons b0 b' => simp [dotL_cons, ih]; ring

theorem dotL_map_mul_right (c : ℝ) (a b : List ℝ) :
    dotL a (b.map (fun t => c * t)) = c * dotL a b := by
  rw [dotL_comm, dotL_map_mul_left, dotL_comm]

theorem dotL_right_all_zero (a b : List ℝ) (h : ∀ t ∈ b, t = 0) : dotL a b = 0 := by
  induction a generalizing b with
  | nil => simp [dotL_nil_left]
  | cons a0 a' ih =>
      cases b with
      | nil => simp [dotL_nil_right]
      | cons b0 b' =>
          have h0 : b0 = 0 := h b0 (List.mem_cons_self b0 b')
          rw [dotL_cons, h0, ih b' (fun t ht => h t (List.mem_cons_of_mem b0 ht))]
          ring

theorem dotL_replicate_zero_right (a : List ℝ) (n : ℕ) :
    dotL a (List.replicate n 0) = 0 :=
  dotL_right_all_zero a _ (fun _ ht => List.eq_of_mem_replicate ht)

theorem dotL_reverse (a b : List ℝ) (h : a.length = b.length) :
    dotL a.reverse b.reverse = dotL a b := by
  unfold dotL
  rw [← List.reverse_zipWith h, List.sum_reverse]

theorem dotL_zipWith_sub (w b z : List ℝ) (h : b.length = z.length) :
    dotL w (List.zipWith (fun s t => s - t) b z) = dotL w b - dotL w z := by
  induction w generalizing b z with
  | nil => simp [dotL_nil_left]
  | cons w0 w' ih =>
      cases b with
      | nil =>
          cases z with
          | nil => simp [dotL_nil_right]
          | cons _ _ => simp at h
      | cons b0 b' =>
          cases z with
          | nil => simp at h
          | cons z0 z' =>
              simp only [List.zipWith_cons_cons, dotL_cons]
              rw [ih b' z' (by simpa using h)]
              ring

theorem dotL_zipWith_add (w p q : List ℝ) (h : p.length = q.length) :
    dotL w (List.zipWith (fun s t => s + t) p q) = dotL w p + dotL w q := by
  induction w generalizing p q with
  | nil => simp [dotL_nil_left]
  | cons w0 w' ih =>
      cases p with
      | nil =>
          cases q with
          | nil => simp [dotL_nil_right]
          | cons _ _ => simp at h
      | cons p0 p' =>
          cases q with
          | nil => simp at h
          | cons q0 q' =>
              simp only [List.zipWith_cons_cons, dotL_cons]
              rw [ih p' q' (by simpa using h)]
              ring

/-! ### Lengths and entries of the design data -/

theorem length_diffL (l : List ℝ) : (diffL l).length = l.length - 1 := by
  simp [diffL, List.length_zipWith, List.length_tail]

theorem length_halfDiff (x : List ℝ) : (halfDiff x).length = x.length - 1 := by
  simp [halfDiff, length_diffL]

theorem length_xyL (x y : List ℝ) : (xyL x y).length = min x.length y.length := by
  simp [xyL, List.length_zipWith]

theorem length_trapTerms (w d : List ℝ) :
    (trapTerms w d).length = min (w.length - 1) d.length := by
  simp only [trapTerms, List.length_zipWith, List.length_tail]
  omega

theorem length_targetB (y : List ℝ) : (targetB y).length = y.length := by
  simp [targetB]

theorem length_designU (x y : List ℝ) (hlen : y.length = x.length)
    (hx : 1 ≤ x.length) : (designU x y).length = x.length := by
  simp only [designU, List.length_cons, length_cumsumL, length_trapTerms,
    length_halfDiff, hlen]
  omega

theorem length_designV (x y : List ℝ) (hlen : y.length = x.length)
    (hx : 1 ≤ x.length) : (designV x y).length = x.length := by
  simp only [designV, List.length_cons, length_cumsumL, length_trapTerms,
    length_halfDiff, length_xyL, hlen, min_self]
  omega

theorem halfDiff_getD (x : List ℝ) (i : ℕ) (hi : i < x.length - 1) :
    (halfDiff x).getD i 0 = 0.5 * (x.getD (i + 1) 0 - x.getD i 0) := by
  have h1 : i < (diffL x).length := by rw [length_diffL]; exact hi
  have h2 : i < x.tail.length := by simp [List.length_tail]; omega
  have h3 : i < x.length := by omega
  rw [halfDiff, getD_map _ _ _ h1, diffL, getD_zipWith _ _ _ _ h2 h3, getD_tail]

theorem trapTerms_getD (w d : List ℝ) (i : ℕ) (hw : i < w.length - 1)
    (hd : i < d.length) :
    (trapTerms w d).getD i 0 = (w.getD (i + 1) 0 + w.getD i 0) * d.getD i 0 := by
  have h1 : i < (List.zipWith (fun a b => a + b) w.tail w).length := by
    simp [List.length_zipWith, List.length_tail]; omega
  have h2 : i < w.tail.length := by simp [List.length_tail]; omega
  have h3 : i < w.length := by omega
  rw [trapTerms, getD_zipWith _ _ _ _ h1 hd, getD_zipWith _ _ _ _ h2 h3, getD_tail]

theorem xyL_getD (x y : List ℝ) (i : ℕ) (hx : i < x.length) (hy : i < y.length) :
    (xyL x y).getD i 0 = x.getD i 0 * y.getD i 0 := by
  rw [xyL, getD_zipWith _ _ _ _ hx hy]

theorem targetB_getD (y : List ℝ) (i : ℕ) (hi : i < y.length) :
    (targetB y).getD i 0 = y.getD i 0 - y.getD 0 0 := by
  rw [targetB, getD_map _ _ _ hi, headD_eq_getD]

/-- The running trapezoid sums of the first column satisfy the spec
recurrence shifted by one index. -/
theorem cumsum_trapU_getD (x y : List ℝ) (hlen : y.length = x.length) (i : ℕ)
    (hi : i < x.length - 1) :
    (cumsumL (trapTerms y (halfDiff x))).getD i 0 = specSy x y (i + 1) := by
  induction i with
  | zero =>
      rw [cumsumL_getD_zero,
        trapTerms_getD _ _ _ (by omega) (by rw [length_halfDiff]; omega),
        halfDiff_getD _ _ (by omega)]
      simp [specSy]
  | succ j ih =>
      have hj : j < x.length - 1 := by omega
      have hlen' : j + 1 < (trapTerms y (halfDiff x)).length := by
        rw [length_trapTerms, length_halfDiff, hlen]; omega
      rw [cumsumL_getD_succ _ _ hlen', ih hj,
        trapTerms_getD _ _ _ (by omega) (by rw [length_halfDiff]; omega),
        halfDiff_getD _ _ (by omega)]
      simp [specSy]

/-- The running trapezoid sums of the second column satisfy the spec
recurrence shifted by one index. -/
theorem cumsum_trapV_getD (x y : List ℝ) (hlen : y.length = x.length) (i : ℕ)
    (hi : i < x.length - 1) :
    (cumsumL (trapTerms (xyL x y) (halfDiff x))).getD i 0 = specSxy x y (i + 1) := by
  have hxy : (xyL x y).length = x.length := by rw [length_xyL, hlen, min_self]
  induction i with
  | zero =>
      rw [cumsumL_getD_zero,
        trapTerms_getD _ _ _ (by omega) (by rw [length_halfDiff]; omega),
        halfDiff_getD _ _ (by omega),
        xyL_getD _ _ _ (by omega) (by omega),
        xyL_getD _ _ _ (by omega) (by omega)]
      simp [specSxy]
  | succ j ih =>
      have hj : j < x.length - 1 := by omega
      have hlen' : j + 1 < (trapTerms (xyL x y) (halfDiff x)).length := by
        rw [length_trapTerms, length_halfDiff, hxy]; omega
      rw [cumsumL_getD_succ _ _ hlen', ih hj,
        trapTerms_getD _ _ _ (by omega) (by rw [length_halfDiff]; omega),
        halfDiff_getD _ _ (by omega),
        xyL_getD _ _ _ (by omega) (by omega),
        xyL_getD _ _ _ (by omega) (by omega)]
      simp [specSxy]

/-- The first design column built by the code equals the spec recurrence. -/
theorem designU_getD_spec (x y : List ℝ) (hlen : y.length = x.length) (i : ℕ)
    (hi : i < x.length) : (designU x y).getD i 0 = specSy x y i := by
  cases i with
  | zero => simp [designU, specSy]
  | succ j =>
      rw [designU, List.getD_cons_succ, cumsum_trapU_getD x y hlen j (by omega)]

/-- The second design column built by the code equals the spec recurrence. -/
theorem designV_getD_spec (x y : List ℝ) (hlen : y.length = x.length) (i : ℕ)
    (hi : i < x.length) : (designV x y).getD i 0 = specSxy x y i := by
  cases i with
  | zero => simp [designV, specSxy]
  | succ j =>
      rw [designV, List.getD_cons_succ, cumsum_trapV_getD x y hlen j (by omega)]

/-! ### Least-squares: expansion, normal equations, minimality -/

theorem length_residGen (u v b : List ℝ) (A B : ℝ) :
    (residGen u v b A B).length = min b.length (min u.length v.length) := by
  simp [residGen, List.length_zipWith]

theorem residGen_getD (u v b : List ℝ) (A B : ℝ) (i : ℕ) (hu : i < u.length)
    (hv : i < v.length) (hb : i < b.length) :
    (residGen u v b A B).getD i 0 =
      b.getD i 0 - (A * u.getD i 0 + B * v.getD i 0) := by
  have h1 : i < (List.zipWith (fun s t => s + t)
      (u.map fun t => A * t) (v.map fun t => B * t)).length := by
    simp [List.length_zipWith]; omega
  have h2 : i < (u.map fun t => A * t).length := by simpa using hu
  have h3 : i < (v.map fun t => B * t).length := by simpa using hv
  rw [residGen, getD_zipWith _ _ _ _ hb h1, getD_zipWith _ _ _ _ h2 h3,
    getD_map _ _ _ hu, getD_map _ _ _ hv]

/-- Quadratic expansion of the squared residual norm of a two-column
least-squares system in terms of its Gram data. -/
theorem dot_residGen_self (u v b : List ℝ) (A B : ℝ) (hu : u.length = b.length)
    (hv : v.length = b.length) :
    dotL (residGen u v b A B) (residGen u v b A B) =
      dotL b b - 2 * A * dotL u b - 2 * B * dotL v b +
        A ^ 2 * dotL u u + 2 * A * B * dotL u v + B ^ 2 * dotL v v := by
  induction u generalizing v b with
  | nil =>
      cases b with
      | nil =>
          cases v with
          | nil => simp [residGen, dotL_nil_left, dotL_nil_right]
          | cons _ _ => simp at hv
      | cons _ _ => simp at hu
  | cons u0 u' ih =>
      cases b with
      | nil => simp at hu
      | cons b0 b' =>
          cases v with
          | nil => simp at hv
          | cons v0 v' =>
              have hu' : u'.length = b'.length := by simpa using hu
              have hv' : v'.length = b'.length := by simpa using hv
              simp only [residGen, List.map_cons, List.zipWith_cons_cons, dotL_cons]
              have := ih v' b' hu' hv'
              simp only [residGen] at this
              rw [this]
              ring

/-- The Cramer coefficient `A` satisfies the first normal equation. -/
theorem normal_eq_u (x y : List ℝ) (hd : detG x y ≠ 0) :
    uuG x y * Aval x y + uvG x y * Bval x y = ubG x y := by
  rw [Aval, Bval]
  field_simp
  simp only [detG]
  ring

/-- The Cramer coefficient `B` satisfies the second normal equation. -/
theorem normal_eq_v (x y : List ℝ) (hd : detG x y ≠ 0) :
    uvG x y * Aval x y + vvG x y * Bval x y = vbG x y := by
  rw [Aval, Bval]
  field_simp
  simp only [detG]
  ring

/-- Positive semidefiniteness of the Gram quadratic form of two columns. -/
theorem quad_form_nonneg (u v : List ℝ) (h : u.length = v.length) (s t : ℝ) :
    0 ≤ s ^ 2 * dotL u u + 2 * s * t * dotL u v + t ^ 2 * dotL v v := by
  have hexp := dot_residGen_self u v (List.replicate u.length 0) (-s) (-t)
    (by simp) (by simp [h])
  rw [dotL_replicate_zero_right, dotL_replicate_zero_right,
    dotL_replicate_zero_right] at hexp
  have hnn := dotL_self_nonneg (residGen u v (List.replicate u.length 0) (-s) (-t))
  rw [hexp] at hnn
  nlinarith [hnn]

/-- Scalar core of the least-squares optimality argument: a solution of the
normal equations minimizes the expanded quadratic objective. -/
theorem scalar_lsq_min (uu uv vv ub vb bb A B A' B' : ℝ)
    (h1 : uu * A + uv * B = ub) (h2 : uv * A + vv * B = vb)
    (hq : 0 ≤ (A' - A) ^ 2 * uu + 2 * (A' - A) * (B' - B) * uv + (B' - B) ^ 2 * vv) :
    bb - 2 * A * ub - 2 * B * vb + A ^ 2 * uu + 2 * A * B * uv + B ^ 2 * vv ≤
      bb - 2 * A' * ub - 2 * B' * vb + A' ^ 2 * uu + 2 * A' * B' * uv + B' ^ 2 * vv := by
  have key : (bb - 2 * A' * ub - 2 * B' * vb + A' ^ 2 * uu + 2 * A' * B' * uv +
        B' ^ 2 * vv) -
      (bb - 2 * A * ub - 2 * B * vb + A ^ 2 * uu + 2 * A * B * uv + B ^ 2 * vv) =
      (A' - A) ^ 2 * uu + 2 * (A' - A) * (B' - B) * uv + (B' - B) ^ 2 * vv := by
    linear_combination (2 * (A' - A)) * h1 + (2 * (B' - B)) * h2
  linarith [hq, key]

/-- On the full-rank path the Cramer solution minimizes the squared residual
norm of the `gauss_fit` linear system over all coefficient pairs. -/
theorem lsObj_min (x y : List ℝ) (hlen : y.length = x.length)
    (hx : 1 ≤ x.length) (hd : detG x y ≠ 0) (A' B' : ℝ) :
    lsObj x y (Aval x y) (Bval x y) ≤ lsObj x y A' B' := by
  have hub : (designU x y).length = (targetB y).length := by
    rw [length_designU x y hlen hx, length_targetB, hlen]
  have hvb : (designV x y).length = (targetB y).length := by
    rw [length_designV x y hlen hx, length_targetB, hlen]
  have huv : (designU x y).length = (designV x y).length := by
    rw [length_designU x y hlen hx, length_designV x y hlen hx]
  have e1 := dot_residGen_self (designU x y) (designV x y) (targetB y)
    (Aval x y) (Bval x y) hub hvb
  have e2 := dot_residGen_self (designU x y) (designV x y) (targetB y) A' B' hub hvb
  have hq := quad_form_nonneg (designU x y) (designV x y) huv
    (A' - Aval x y) (B' - Bval x y)
  have h1 := normal_eq_u x y hd
  have h2 := normal_eq_v x y hd
  simp only [lsObj, residL]
  rw [e1, e2]
  simp only [uuG, uvG, vvG, ubG, vbG] at h1 h2
  exact scalar_lsq_min _ _ _ _ _ _ _ _ _ _ h1 h2 hq

/-! ### Non-finite (`RF`) propagation lemmas and the `gauss_fit` paths -/

/-- The (possibly non-finite) mean `mu = -A / B` on the full-rank path. -/
noncomputable def muRF (x y : List ℝ) : RF :=
  rfDiv (some (-(Aval x y))) (some (Bval x y))

/-- The (possibly non-finite) deviation `sigma = sqrt(-1.0 / B)` on the
full-rank path. -/
noncomputable def sigmaRF (x y : List ℝ) : RF :=
  rfSqrt (rfDiv (some (-1)) (some (Bval x y)))

/-- The trial curve `a2 = exp(-0.5 * ((x - mu) / sigma)**2)` on the
full-rank path, with non-finite propagation. -/
noncomputable def a2RF (x y : List ℝ) : List RF :=
  x.map (fun t =>
    rfExp (rfMul (some (-0.5))
      (rfMul (rfDiv (rfSub (some t) (muRF x y)) (sigmaRF x y))
        (rfDiv (rfSub (some t) (muRF x y)) (sigmaRF x y)))))

/-- The (possibly non-finite) amplitude `amp = y.dot(a2) / a2.dot(a2)` on the
full-rank path. -/
noncomputable def ampRF (x y : List ℝ) : RF :=
  rfDiv (rfDot (y.map some) (a2RF x y)) (rfDot (a2RF x y) (a2RF x y))

theorem rfSub_some (a b : ℝ) : rfSub (some a) (some b) = some (a - b) := rfl

theorem rfSub_none_right (X : RF) : rfSub X none = none := by cases X <;> rfl

theorem rfMul_some (a b : ℝ) : rfMul (some a) (some b) = some (a * b) := rfl

theorem rfMul_none_right (X : RF) : rfMul X none = none := by cases X <;> rfl

theorem rfAdd_none_left (X : RF) : rfAdd none X = none := by cases X <;> rfl

theorem rfDiv_some (b : ℝ) (hb : b ≠ 0) (a : ℝ) :
    rfDiv (some a) (some b) = some (a / b) := by
  simp [rfDiv, hb]

theorem rfDiv_some_zero (a : ℝ) : rfDiv (some a) (some 0) = none := by
  simp [rfDiv]

theorem rfDiv_none_right (X : RF) : rfDiv X none = none := by cases X <;> rfl

theorem rfDiv_none_left (X : RF) : rfDiv none X = none := by cases X <;> rfl

theorem rfSqrt_none : rfSqrt none = none := rfl

theorem rfSqrt_of_neg (a : ℝ) (h : a < 0) : rfSqrt (some a) = none := by
  simp [rfSqrt, h]

theorem rfSqrt_of_nonneg (a : ℝ) (h : 0 ≤ a) :
    rfSqrt (some a) = some (Real.sqrt a) := by
  simp [rfSqrt, not_lt.mpr h]

theorem rfDot_map_some (a b : List ℝ) :
    rfDot (a.map some) (b.map some) = some (dotL a b) := by
  induction a generalizing b with
  | nil => simp [rfDot, dotL_nil_left]
  | cons a0 a' ih =>
      cases b with
      | nil => simp [rfDot, dotL_nil_right]
      | cons b0 b' =>
          simp only [List.map_cons, rfDot, List.zipWith_cons_cons, List.foldr_cons,
            dotL_cons]
          have ihb := ih b'
          simp only [rfDot] at ihb
          rw [ihb, rfMul_some, rfAdd]

theorem rfDot_cons_none_left (a b : List RF) (c : RF) :
    rfDot (none :: a) (c :: b) = none := by
  have h1 : rfMul none c = none := by cases c <;> rfl
  simp [rfDot, h1, rfAdd_none_left]

/-- On the full-rank path `gauss_fit` returns the triple of (possibly
non-finite) amplitude, mean, and deviation. -/
theorem gaussFit_full_rank (x y : List ℝ) (hd : detG x y ≠ 0) :
    gaussFit x y = some (ampRF x y, muRF x y, sigmaRF x y) := by
  simp only [gaussFit, lstsq2, if_neg hd, ampRF, muRF, sigmaRF, a2RF]

/-- When `sigma` is non-finite the whole trial curve is non-finite, and so is
the projected amplitude. -/
theorem ampRF_none_of_sigmaRF_none (x y : List ℝ) (hs : sigmaRF x y = none)
    (hx : x ≠ []) : ampRF x y = none := by
  have ha2 : a2RF x y = x.map (fun _ => none) := by
    simp only [a2RF, hs, rfDiv_none_right, rfMul_none_right]
    simp [rfExp]
  cases x with
  | nil => exact absurd rfl hx
  | cons x0 x' =>
      rw [ampRF, ha2]
      simp only [List.map_cons]
      rw [rfDot_cons_none_left, rfDiv_none_right]

/-- On the full-rank path with negative curvature coefficient `B`, all three
returned components are finite, with the closed-form values. -/
theorem gaussFit_good (x y : List ℝ) (hd : detG x y ≠ 0) (hB : Bval x y < 0)
    (hx : x ≠ []) :
    gaussFit x y = some (some (ampVal x y), some (muVal x y), some (sigVal x y)) := by
  have hB0 : Bval x y ≠ 0 := ne_of_lt hB
  have hmu : muRF x y = some (muVal x y) := by
    rw [muRF, rfDiv_some _ hB0, muVal]
  have hpos : 0 < (-1 : ℝ) / Bval x y :=
    div_pos_of_neg_of_neg (by norm_num) hB
  have hsig : sigmaRF x y = some (sigVal x y) := by
    rw [sigmaRF, rfDiv_some _ hB0, rfSqrt_of_nonneg _ hpos.le, sigVal]
  have hsv : sigVal x y ≠ 0 := by
    rw [sigVal]
    exact (Real.sqrt_pos.mpr hpos).ne'
  have ha2 : a2RF x y = (gList x (muVal x y) (sigVal x y)).map some := by
    simp only [a2RF, hmu, hsig, rfSub_some, rfDiv_some _ hsv, rfMul_some, rfExp,
      gList, List.map_map]
    rfl
  have hglen : gList x (muVal x y) (sigVal x y) ≠ [] := by
    simp [gList, hx]
  have hgpos : ∀ t ∈ gList x (muVal x y) (sigVal x y), 0 < t := by
    intro t ht
    rw [gList] at ht
    obtain ⟨s, _, rfl⟩ := List.mem_map.mp ht
    exact Real.exp_pos _
  have hgg : dotL (gList x (muVal x y) (sigVal x y))
      (gList x (muVal x y) (sigVal x y)) ≠ 0 :=
    (dotL_self_pos _ hglen hgpos).ne'
  rw [gaussFit_full_rank x y hd, hmu, hsig]
  rw [ampRF, ha2, rfDot_map_some, rfDot_map_some, rfDiv_some _ hgg, ampVal]

/-- On the full-rank path with non-negative curvature coefficient `B`, the
code silently produces a non-finite `sigma` (square root of a non-positive
`-1/B`) and a non-finite amplitude; no failure is signalled. -/
theorem gaussFit_bad_curvature (x y : List ℝ) (hd : detG x y ≠ 0)
    (hB : 0 ≤ Bval x y) (hx : x ≠ []) :
    gaussFit x y = some (none, muRF x y, none) := by
  have hsig : sigmaRF x y = none := by
    rcases eq_or_lt_of_le hB with h0 | hpos
    · rw [sigmaRF, ← h0, rfDiv_some_zero, rfSqrt_none]
    · rw [sigmaRF, rfDiv_some _ (ne_of_gt hpos),
        rfSqrt_of_neg _ (div_neg_of_neg_of_pos (by norm_num) hpos)]
  rw [gaussFit_full_rank x y hd, hsig, ampRF_none_of_sigmaRF_none x y hsig hx]

/-- On a constant-`y` input the target vector vanishes, the least-squares
solve returns `(0, 0)`, and the code silently produces an all-non-finite
triple (NaN mean, deviation, and amplitude); no failure is signalled. -/
theorem gaussFit_const_y (x y : List ℝ) (hconst : ∀ t ∈ y, t = y.headD 0)
    (hd : detG x y ≠ 0) (hx : x ≠ []) :
    gaussFit x y = some (none, none, none) := by
  have hb0 : ∀ t ∈ targetB y, t = 0 := by
    intro t ht
    rw [targetB] at ht
    obtain ⟨s, hs, rfl⟩ := List.mem_map.mp ht
    rw [hconst s hs, sub_self]
  have hub : ubG x y = 0 := dotL_right_all_zero _ _ hb0
  have hvb : vbG x y = 0 := dotL_right_all_zero _ _ hb0
  have hA : Aval x y = 0 := by rw [Aval, hub, hvb]; ring_nf
  have hB : Bval x y = 0 := by rw [Bval, hub, hvb]; ring_nf
  have hmu : muRF x y = none := by rw [muRF, hA, hB, neg_zero, rfDiv_some_zero]
  have hsig : sigmaRF x y = none := by rw [sigmaRF, hB, rfDiv_some_zero, rfSqrt_none]
  rw [gaussFit_full_rank x y hd, hmu, hsig, ampRF_none_of_sigmaRF_none x y hsig hx]

/-! ### Reversal of the data order -/

/-- Reversing the data turns the running trapezoid sums into sums anchored
at the opposite end: `S_y_rev[j] = S_y[n-1-j] - S_y[n-1]`. -/
theorem specSy_reverse (x y : List ℝ) (hlen : y.length = x.length) (j : ℕ)
    (hj : j < x.length) :
    specSy x.reverse y.reverse j =
      specSy x y (x.length - 1 - j) - specSy x y (x.length - 1) := by
  induction j with
  | zero => simp [specSy]
  | succ k ih =>
      have hk : k < x.length := by omega
      have hxr1 : x.reverse.getD (k + 1) 0 = x.getD (x.length - 2 - k) 0 := by
        rw [getD_reverse _ _ (by simpa using hj)]
        congr 1
        omega
      have hxr0 : x.reverse.getD k 0 = x.getD (x.length - 2 - k + 1) 0 := by
        rw [getD_reverse _ _ (by simpa using hk)]
        congr 1
        omega
      have hyr1 : y.reverse.getD (k + 1) 0 = y.getD (x.length - 2 - k) 0 := by
        rw [getD_reverse _ _ (by simp [hlen]; omega)]
        congr 1
        omega
      have hyr0 : y.reverse.getD k 0 = y.getD (x.length - 2 - k + 1) 0 := by
        rw [getD_reverse _ _ (by simp [hlen]; omega)]
        congr 1
        omega
      have hidx1 : x.length - 1 - k = x.length - 2 - k + 1 := by omega
      have hidx2 : x.length - 1 - (k + 1) = x.length - 2 - k := by omega
      rw [specSy, ih hk, hxr1, hxr0, hyr1, hyr0, hidx1, hidx2, specSy]
      ring

/-- Reversing the data turns the running trapezoid sums of `x*y` into sums
anchored at the opposite end: `S_xy_rev[j] = S_xy[n-1-j] - S_xy[n-1]`. -/
theorem specSxy_reverse (x y : List ℝ) (hlen : y.length = x.length) (j : ℕ)
    (hj : j < x.length) :
    specSxy x.reverse y.reverse j =
      specSxy x y (x.length - 1 - j) - specSxy x y (x.length - 1) := by
  induction j with
  | zero => simp [specSxy]
  | succ k ih =>
      have hk : k < x.length := by omega
      have hxr1 : x.reverse.getD (k + 1) 0 = x.getD (x.length - 2 - k) 0 := by
        rw [getD_reverse _ _ (by simpa using hj)]
        congr 1
        omega
      have hxr0 : x.reverse.getD k 0 = x.getD (x.length - 2 - k + 1) 0 := by
        rw [getD_reverse _ _ (by simpa using hk)]
        congr 1
        omega
      have hyr1 : y.reverse.getD (k + 1) 0 = y.getD (x.length - 2 - k) 0 := by
        rw [getD_reverse _ _ (by simp [hlen]; omega)]
        congr 1
        omega
      have hyr0 : y.reverse.getD k 0 = y.getD (x.length - 2 - k + 1) 0 := by
        rw [getD_reverse _ _ (by simp [hlen]; omega)]
        congr 1
        omega
      have hidx1 : x.length - 1 - k = x.length - 2 - k + 1 := by omega
      have hidx2 : x.length - 1 - (k + 1) = x.length - 2 - k := by omega
      rw [specSxy, ih hk, hxr1, hxr0, hyr1, hyr0, hidx1, hidx2, specSxy]
      ring

/-- The dot product against a two-column residual splits linearly. -/
theorem dot_residGen (w u v b : List ℝ) (A B : ℝ) (hu : u.length = b.length)
    (hv : v.length = b.length) :
    dotL w (residGen u v b A B) = dotL w b - (A * dotL w u + B * dotL w v) := by
  have hz : b.length = (List.zipWith (fun s t => s + t)
      (u.map fun t => A * t) (v.map fun t => B * t)).length := by
    simp [List.length_zipWith, hu, hv]
  rw [residGen, dotL_zipWith_sub _ _ _ hz,
    dotL_zipWith_add _ _ _ (by simp [hu, hv]),
    dotL_map_mul_right, dotL_map_mul_right]

/-- A nonsingular 2×2 symmetric system has at most one solution. -/
theorem normal_unique (uu uv vv ub vb A₁ B₁ A₂ B₂ : ℝ)
    (hdet : uu * vv - uv * uv ≠ 0)
    (e11 : uu * A₁ + uv * B₁ = ub) (e12 : uv * A₁ + vv * B₁ = vb)
    (e21 : uu * A₂ + uv * B₂ = ub) (e22 : uv * A₂ + vv * B₂ = vb) :
    A₁ = A₂ ∧ B₁ = B₂ := by
  have d1 : uu * (A₁ - A₂) + uv * (B₁ - B₂) = 0 := by linarith
  have d2 : uv * (A₁ - A₂) + vv * (B₁ - B₂) = 0 := by linarith
  have hA : (uu * vv - uv * uv) * (A₁ - A₂) = 0 := by
    linear_combination vv * d1 - uv * d2
  have hB : (uu * vv - uv * uv) * (B₁ - B₂) = 0 := by
    linear_combination uu * d2 - uv * d1
  constructor
  · have := (mul_eq_zero.mp hA).resolve_left hdet
    linarith
  · have := (mul_eq_zero.mp hB).resolve_left hdet
    linarith

/-- Forward residual zero in spec form: the data satisfies the linearized
integral equation exactly. -/
theorem spec_consistent_of_residL_zero (x y : List ℝ) (hlen : y.length = x.length)
    (hx : 1 ≤ x.length)
    (hres : residL x y (Aval x y) (Bval x y) = List.replicate x.length (0 : ℝ)) :
    ∀ i < x.length, y.getD i 0 - y.getD 0 0 =
      Aval x y * specSy x y i + Bval x y * specSxy x y i := by
  intro i hi
  have h1 := congrArg (fun l => l.getD i 0) hres
  simp only [getD_replicate_zero] at h1
  rw [residL, residGen_getD _ _ _ _ _ i
      (by rw [length_designU x y hlen hx]; exact hi)
      (by rw [length_designV x y hlen hx]; exact hi)
      (by rw [length_targetB, hlen]; exact hi),
    targetB_getD _ _ (by rw [hlen]; exact hi),
    designU_getD_spec x y hlen i hi, designV_getD_spec x y hlen i hi] at h1
  linarith

/-- If the forward fit has zero residual, so does the fit on the reversed
data, at the same coefficients. -/
theorem residL_reverse_zero (x y : List ℝ) (hlen : y.length = x.length)
    (hx : 1 ≤ x.length)
    (hres : residL x y (Aval x y) (Bval x y) = List.replicate x.length (0 : ℝ)) :
    residL x.reverse y.reverse (Aval x y) (Bval x y) =
      List.replicate x.length (0 : ℝ) := by
  have hE := spec_consistent_of_residL_zero x y hlen hx hres
  have hlenrev : y.reverse.length = x.reverse.length := by simp [hlen]
  have hxrev : 1 ≤ x.reverse.length := by simpa using hx
  have hU : (designU x.reverse y.reverse).length = x.length := by
    rw [length_designU _ _ hlenrev hxrev, List.length_reverse]
  have hV : (designV x.reverse y.reverse).length = x.length := by
    rw [length_designV _ _ hlenrev hxrev, List.length_reverse]
  have hT : (targetB y.reverse).length = x.length := by
    rw [length_targetB, List.length_reverse, hlen]
  apply List.ext_getElem
  · rw [residL, length_residGen, hU, hV, hT, List.length_replicate]
    omega
  · intro j hj1 hj2
    have hjn : j < x.length := by
      rw [residL, length_residGen, hU, hV, hT] at hj1
      omega
    rw [← List.getD_eq_getElem _ 0 hj1, ← List.getD_eq_getElem _ 0 hj2,
      getD_replicate_zero]
    rw [residL, residGen_getD _ _ _ _ _ j (by rw [hU]; exact hjn)
        (by rw [hV]; exact hjn) (by rw [hT]; exact hjn),
      targetB_getD _ _ (by rw [List.length_reverse, hlen]; exact hjn),
      designU_getD_spec _ _ hlenrev j (by rw [List.length_reverse]; exact hjn),
      designV_getD_spec _ _ hlenrev j (by rw [List.length_reverse]; exact hjn),
      specSy_reverse x y hlen j hjn, specSxy_reverse x y hlen j hjn]
    have hy0 : y.reverse.getD 0 0 = y.getD (x.length - 1) 0 := by
      rw [getD_reverse _ _ (by rw [hlen]; omega)]
      congr 1
      omega
    have hyj : y.reverse.getD j 0 = y.getD (x.length - 1 - j) 0 := by
      rw [getD_reverse _ _ (by rw [hlen]; exact hjn)]
      congr 1
      omega
    rw [hy0, hyj]
    have e1 := hE (x.length - 1 - j) (by omega)
    have e2 := hE (x.length - 1) (by omega)
    linarith

/-- If the forward fit has zero residual and both orders are full rank, the
reversed least-squares solve returns the same coefficients. -/
theorem cramer_reverse_eq (x y : List ℝ) (hlen : y.length = x.length)
    (hx : 1 ≤ x.length)
    (hres : residL x y (Aval x y) (Bval x y) = List.replicate x.length (0 : ℝ))
    (hd' : detG x.reverse y.reverse ≠ 0) :
    Aval x.reverse y.reverse = Aval x y ∧ Bval x.reverse y.reverse = Bval x y := by
  have hrz := residL_reverse_zero x y hlen hx hres
  have hlenrev : y.reverse.length = x.reverse.length := by simp [hlen]
  have hxrev : 1 ≤ x.reverse.length := by simpa using hx
  have hub : (designU x.reverse y.reverse).length = (targetB y.reverse).length := by
    rw [length_designU _ _ hlenrev hxrev, length_targetB, hlenrev]
  have hvb : (designV x.reverse y.reverse).length = (targetB y.reverse).length := by
    rw [length_designV _ _ hlenrev hxrev, length_targetB, hlenrev]
  have h0u : dotL (designU x.reverse y.reverse)
      (residL x.reverse y.reverse (Aval x y) (Bval x y)) = 0 := by
    rw [hrz]
    exact dotL_replicate_zero_right _ _
  have h0v : dotL (designV x.reverse y.reverse)
      (residL x.reverse y.reverse (Aval x y) (Bval x y)) = 0 := by
    rw [hrz]
    exact dotL_replicate_zero_right _ _
  rw [residL, dot_residGen _ _ _ _ _ _ hub hvb] at h0u h0v
  have nu : uuG x.reverse y.reverse * Aval x y +
      uvG x.reverse y.reverse * Bval x y = ubG x.reverse y.reverse := by
    simp only [uuG, uvG, ubG]
    linarith
  have nv : uvG x.reverse y.reverse * Aval x y +
      vvG x.reverse y.reverse * Bval x y = vbG x.reverse y.reverse := by
    simp only [uvG, vvG, vbG]
    rw [dotL_comm (designV x.reverse y.reverse) (designU x.reverse y.reverse)] at h0v
    linarith
  have hdet2 : uuG x.reverse y.reverse * vvG x.reverse y.reverse -
      uvG x.reverse y.reverse * uvG x.reverse y.reverse ≠ 0 := by
    simpa [detG] using hd'
  have := normal_unique (uuG x.reverse y.reverse) (uvG x.reverse y.reverse)
    (vvG x.reverse y.reverse) (ubG x.reverse y.reverse) (vbG x.reverse y.reverse)
    (Aval x.reverse y.reverse) (Bval x.reverse y.reverse) (Aval x y) (Bval x y)
    hdet2 (normal_eq_u _ _ hd') (normal_eq_v _ _ hd') nu nv
  exact this

/-! ### Scaling the ordinates -/

theorem cumsumL_map_mul (c : ℝ) (l : List ℝ) :
    cumsumL (l.map (fun t => c * t)) = (cumsumL l).map (fun t => c * t) := by
  induction l with
  | nil => rfl
  | cons a r ih =>
      simp only [List.map_cons, cumsumL, ih, List.map_map, List.cons.injEq,
        true_and]
      congr 1
      funext t
      simp only [Function.comp_apply]
      ring

theorem tail_map_mul (c : ℝ) (l : List ℝ) :
    (l.map (fun t => c * t)).tail = l.tail.map (fun t => c * t) := by
  cases l <;> rfl

theorem zipWith_add_map_mul (c : ℝ) (p q : List ℝ) :
    List.zipWith (fun a b => a + b) (p.map (fun t => c * t)) (q.map (fun t => c * t)) =
      (List.zipWith (fun a b => a + b) p q).map (fun t => c * t) := by
  induction p generalizing q with
  | nil => simp
  | cons p0 p' ih =>
      cases q with
      | nil => simp
      | cons q0 q' =>
          simp only [List.map_cons, List.zipWith_cons_cons, ih, List.cons.injEq,
            true_and, and_true]
          ring

theorem zipWith_mul_map_left (c : ℝ) (p q : List ℝ) :
    List.zipWith (fun a b => a * b) (p.map (fun t => c * t)) q =
      (List.zipWith (fun a b => a * b) p q).map (fun t => c * t) := by
  induction p generalizing q with
  | nil => simp
  | cons p0 p' ih =>
      cases q with
      | nil => simp
      | cons q0 q' =>
          simp only [List.map_cons, List.zipWith_cons_cons, ih, List.cons.injEq,
            true_and, and_true]
          ring

theorem trapTerms_map_mul (c : ℝ) (w d : List ℝ) :
    trapTerms (w.map (fun t => c * t)) d = (trapTerms w d).map (fun t => c * t) := by
  rw [trapTerms, trapTerms, tail_map_mul, zipWith_add_map_mul, zipWith_mul_map_left]

theorem xyL_map_mul (c : ℝ) (x y : List ℝ) :
    xyL x (y.map (fun t => c * t)) = (xyL x y).map (fun t => c * t) := by
  induction x generalizing y with
  | nil => simp [xyL]
  | cons x0 x' ih =>
      cases y with
      | nil => simp [xyL]
      | cons y0 y' =>
          simp only [xyL, List.map_cons, List.zipWith_cons_cons] at ih ⊢
          rw [ih]
          simp only [List.cons.injEq, and_true, true_and]
          ring

theorem targetB_map_mul (c : ℝ) (y : List ℝ) :
    targetB (y.map (fun t => c * t)) = (targetB y).map (fun t => c * t) := by
  cases y with
  | nil => rfl
  | cons a r =>
      simp only [targetB, List.map_cons, List.headD_cons, List.map_map]
      congr 1
      · ring
      · congr 1
        funext t
        simp only [Function.comp_apply]
        ring

theorem designU_map_mul (c : ℝ) (x y : List ℝ) :
    designU x (y.map (fun t => c * t)) = (designU x y).map (fun t => c * t) := by
  simp only [designU, trapTerms_map_mul, cumsumL_map_mul, List.map_cons, mul_zero]

theorem designV_map_mul (c : ℝ) (x y : List ℝ) :
    designV x (y.map (fun t => c * t)) = (designV x y).map (fun t => c * t) := by
  simp only [designV, xyL_map_mul, trapTerms_map_mul, cumsumL_map_mul,
    List.map_cons, mul_zero]

theorem uuG_map_mul (c : ℝ) (x y : List ℝ) :
    uuG x (y.map (fun t => c * t)) = c ^ 2 * uuG x y := by
  rw [uuG, uuG, designU_map_mul, dotL_map_mul_left, dotL_map_mul_right]
  ring

theorem uvG_map_mul (c : ℝ) (x y : List ℝ) :
    uvG x (y.map (fun t => c * t)) = c ^ 2 * uvG x y := by
  rw [uvG, uvG, designU_map_mul, designV_map_mul, dotL_map_mul_left,
    dotL_map_mul_right]
  ring

theorem vvG_map_mul (c : ℝ) (x y : List ℝ) :
    vvG x (y.map (fun t => c * t)) = c ^ 2 * vvG x y := by
  rw [vvG, vvG, designV_map_mul, dotL_map_mul_left, dotL_map_mul_right]
  ring

theorem ubG_map_mul (c : ℝ) (x y : List ℝ) :
    ubG x (y.map (fun t => c * t)) = c ^ 2 * ubG x y := by
  rw [ubG, ubG, designU_map_mul, targetB_map_mul, dotL_map_mul_left,
    dotL_map_mul_right]
  ring

theorem vbG_map_mul (c : ℝ) (x y : List ℝ) :
    vbG x (y.map (fun t => c * t)) = c ^ 2 * vbG x y := by
  rw [vbG, vbG, designV_map_mul, targetB_map_mul, dotL_map_mul_left,
    dotL_map_mul_right]
  ring

theorem detG_map_mul (c : ℝ) (x y : List ℝ) :
    detG x (y.map (fun t => c * t)) = c ^ 4 * detG x y := by
  rw [detG, detG, uuG_map_mul, uvG_map_mul, vvG_map_mul]
  ring

theorem Aval_map_mul (c : ℝ) (hc : c ≠ 0) (x y : List ℝ) (hd : detG x y ≠ 0) :
    Aval x (y.map (fun t => c * t)) = Aval x y := by
  rw [Aval, Aval, ubG_map_mul, vbG_map_mul, uvG_map_mul, vvG_map_mul, detG_map_mul]
  rw [div_eq_div_iff (by positivity) hd]
  ring

theorem Bval_map_mul (c : ℝ) (hc : c ≠ 0) (x y : List ℝ) (hd : detG x y ≠ 0) :
    Bval x (y.map (fun t => c * t)) = Bval x y := by
  rw [Bval, Bval, ubG_map_mul, vbG_map_mul, uvG_map_mul, uuG_map_mul, detG_map_mul]
  rw [div_eq_div_iff (by positivity) hd]
  ring

/-! ### Amplitude projection -/

/-- Error vector `y - c * a2` of scaling the trial curve by `c`. -/
noncomputable def ampResid (x y : List ℝ) (c : ℝ) : List ℝ :=
  List.zipWith (fun s t => s - t) y
    ((gList x (muVal x y) (sigVal x y)).map (fun t => c * t))

/-- Quadratic expansion of the squared norm of `y - c * g`. -/
theorem dot_scale_err (y g : List ℝ) (c : ℝ) (h : y.length = g.length) :
    dotL (List.zipWith (fun s t => s - t) y (g.map (fun t => c * t)))
        (List.zipWith (fun s t => s - t) y (g.map (fun t => c * t))) =
      dotL y y - 2 * c * dotL y g + c ^ 2 * dotL g g := by
  induction y generalizing g with
  | nil =>
      cases g with
      | nil => simp [dotL_nil_left]
      | cons _ _ => simp at h
  | cons y0 y' ih =>
      cases g with
      | nil => simp at h
      | cons g0 g' =>
          simp only [List.map_cons, List.zipWith_cons_cons, dotL_cons]
          rw [ih g' (by simpa using h)]
          ring

/-- The projected amplitude `(y · g) / (g · g)` minimizes the squared error
over all scalar multiples of the trial curve. -/
theorem scale_err_min (y g : List ℝ) (h : y.length = g.length)
    (hgg : 0 < dotL g g) (c : ℝ) :
    dotL (List.zipWith (fun s t => s - t) y
        (g.map (fun t => dotL y g / dotL g g * t)))
        (List.zipWith (fun s t => s - t) y
        (g.map (fun t => dotL y g / dotL g g * t))) ≤
      dotL (List.zipWith (fun s t => s - t) y (g.map (fun t => c * t)))
        (List.zipWith (fun s t => s - t) y (g.map (fun t => c * t))) := by
  rw [dot_scale_err y g _ h, dot_scale_err y g _ h]
  have hne : dotL g g ≠ 0 := hgg.ne'
  have key : (dotL y y - 2 * c * dotL y g + c ^ 2 * dotL g g) -
      (dotL y y - 2 * (dotL y g / dotL g g) * dotL y g +
        (dotL y g / dotL g g) ^ 2 * dotL g g) =
      (c * dotL g g - dotL y g) ^ 2 / dotL g g := by
    field_simp
    ring
  have hnn : 0 ≤ (c * dotL g g - dotL y g) ^ 2 / dotL g g :=
    div_nonneg (sq_nonneg _) hgg.le
  linarith

/-! ### Claims -/

/-- C1 (counterexample): on `x = [0,1,2,3]`, `y = [0,1,0,2]` the recovered
coefficient is `B = 3/5 ≥ 0`, yet `gauss_fit` raises nothing and returns a
triple whose `sigma` (and amplitude) is NaN — it silently returns NaN
instead of reporting a fit failure. -/
theorem claimC1_counterexample :
    0 ≤ Bval [0, 1, 2, 3] [0, 1, 0, 2] ∧
    gaussFit [0, 1, 2, 3] [0, 1, 0, 2] = some (none, some (1 / 3), none) := by
  have hd : detG [0, 1, 2, 3] [0, 1, 0, 2] ≠ 0 := by
    norm_num [detG, uuG, uvG, vvG, designU, designV, targetB, dotL, cumsumL,
      trapTerms, halfDiff, diffL, xyL, List.zipWith, List.tail]
  have hA : Aval [0, 1, 2, 3] [0, 1, 0, 2] = -(1 / 5) := by
    norm_num [Aval, detG, uuG, uvG, vvG, ubG, vbG, designU, designV, targetB,
      dotL, cumsumL, trapTerms, halfDiff, diffL, xyL, List.zipWith, List.tail]
  have hB : Bval [0, 1, 2, 3] [0, 1, 0, 2] = 3 / 5 := by
    norm_num [Bval, detG, uuG, uvG, vvG, ubG, vbG, designU, designV, targetB,
      dotL, cumsumL, trapTerms, halfDiff, diffL, xyL, List.zipWith, List.tail]
  refine ⟨by rw [hB]; norm_num, ?_⟩
  rw [gaussFit_bad_curvature _ _ hd (by rw [hB]; norm_num) (by simp)]
  rw [muRF, hA, hB, rfDiv_some _ (by norm_num)]
  norm_num

/-- C1 (amended): whenever the full-rank least-squares solve yields `B ≥ 0`,
`gauss_fit` performs no explicit check and reports no failure: it returns a
triple whose `sigma` and amplitude are non-finite (NaN). -/
theorem claimC1_amended (x y : List ℝ) (hd : detG x y ≠ 0)
    (hB : 0 ≤ Bval x y) (hx : x ≠ []) :
    ∃ m : RF, gaussFit x y = some (none, m, none) :=
  ⟨muRF x y, gaussFit_bad_curvature x y hd hB hx⟩

/-- C1 (witness): the amended claim instantiated at `x = [0,1,2,3]`,
`y = [0,1,0,2]`. -/
theorem claimC1_witness :
    (detG [0, 1, 2, 3] [0, 1, 0, 2] ≠ 0 ∧ 0 ≤ Bval [0, 1, 2, 3] [0, 1, 0, 2] ∧
      ([0, 1, 2, 3] : List ℝ) ≠ []) ∧
    ∃ m : RF, gaussFit [0, 1, 2, 3] [0, 1, 0, 2] = some (none, m, none) := by
  have hd : detG [0, 1, 2, 3] [0, 1, 0, 2] ≠ 0 := by
    norm_num [detG, uuG, uvG, vvG, designU, designV, targetB, dotL, cumsumL,
      trapTerms, halfDiff, diffL, xyL, List.zipWith, List.tail]
  have hB : 0 ≤ Bval [0, 1, 2, 3] [0, 1, 0, 2] := by
    norm_num [Bval, detG, uuG, uvG, vvG, ubG, vbG, designU, designV, targetB,
      dotL, cumsumL, trapTerms, halfDiff, diffL, xyL, List.zipWith, List.tail]
  exact ⟨⟨hd, hB, by simp⟩, claimC1_amended _ _ hd hB (by simp)⟩

/-- C2 (counterexample): on the perfectly colinear input `y = x` with
`x = [0,1,2]`, `gauss_fit` raises nothing and returns a finite (but
meaningless) triple with `mu = 2` and `sigma = sqrt(1/2)`. -/
theorem claimC2_counterexample :
    ∃ a : ℝ, gaussFit [0, 1, 2] [0, 1, 2] =
      some (some a, some 2, some (Real.sqrt (1 / 2))) := by
  have hd : detG [0, 1, 2] [0, 1, 2] ≠ 0 := by
    norm_num [detG, uuG, uvG, vvG, designU, designV, targetB, dotL, cumsumL,
      trapTerms, halfDiff, diffL, xyL, List.zipWith, List.tail]
  have hA : Aval [0, 1, 2] [0, 1, 2] = 4 := by
    norm_num [Aval, detG, uuG, uvG, vvG, ubG, vbG, designU, designV, targetB,
      dotL, cumsumL, trapTerms, halfDiff, diffL, xyL, List.zipWith, List.tail]
  have hB : Bval [0, 1, 2] [0, 1, 2] = -2 := by
    norm_num [Bval, detG, uuG, uvG, vvG, ubG, vbG, designU, designV, targetB,
      dotL, cumsumL, trapTerms, halfDiff, diffL, xyL, List.zipWith, List.tail]
  refine ⟨ampVal [0, 1, 2] [0, 1, 2], ?_⟩
  rw [gaussFit_good _ _ hd (by rw [hB]; norm_num) (by simp)]
  have hmu : muVal [0, 1, 2] [0, 1, 2] = 2 := by
    rw [muVal, hA, hB]
    norm_num
  have hsig : sigVal [0, 1, 2] [0, 1, 2] = Real.sqrt (1 / 2) := by
    rw [sigVal, hB]
    norm_num
  rw [hmu, hsig]

/-- C2 (amended): on a constant-`y` input (with the design columns still
full rank and `x` nonempty) `gauss_fit` raises nothing: the least-squares
solve returns `(0, 0)` exactly and the code silently returns an
all-non-finite (NaN) triple. On colinear `y = k·x` inputs it can even
return an entirely finite, meaningless triple. -/
theorem claimC2_amended (x y : List ℝ) (hconst : ∀ t ∈ y, t = y.headD 0)
    (hd : detG x y ≠ 0) (hx : x ≠ []) :
    gaussFit x y = some (none, none, none) :=
  gaussFit_const_y x y hconst hd hx

/-- C2 (witness): the amended claim instantiated at `x = [0,1,2]`,
`y = [1,1,1]`. -/
theorem claimC2_witness :
    ((∀ t ∈ ([1, 1, 1] : List ℝ), t = ([1, 1, 1] : List ℝ).headD 0) ∧
      detG [0, 1, 2] [1, 1, 1] ≠ 0 ∧ ([0, 1, 2] : List ℝ) ≠ []) ∧
    gaussFit [0, 1, 2] [1, 1, 1] = some (none, none, none) := by
  have hconst : ∀ t ∈ ([1, 1, 1] : List ℝ), t = ([1, 1, 1] : List ℝ).headD 0 := by
    intro t ht
    simp only [List.headD_cons]
    simp only [List.mem_cons, List.not_mem_nil, or_false] at ht
    rcases ht with h | h | h <;> exact h
  have hd : detG [0, 1, 2] [1, 1, 1] ≠ 0 := by
    norm_num [detG, uuG, uvG, vvG, designU, designV, targetB, dotL, cumsumL,
      trapTerms, halfDiff, diffL, xyL, List.zipWith, List.tail]
  exact ⟨⟨hconst, hd, by simp⟩,
    claimC2_amended _ _ hconst hd (by simp)⟩

/-- C3: for data of length `N ≥ 2`, the two design columns built by
`gauss_fit` via `cumsum` equal the cumulative trapezoidal integrals given by
the spec recurrences `S_y[0] = 0`, `S_y[i] = S_y[i-1] + (y_i + y_{i-1}) * d_{i-1}`
and `S_xy[0] = 0`, `S_xy[i] = S_xy[i-1] + (xy_i + xy_{i-1}) * d_{i-1}` with
`d_i = 0.5 * (x_{i+1} - x_i)` and `xy_i = x_i * y_i`. -/
theorem claimC3_design_columns (x y : List ℝ) (hlen : y.length = x.length)
    (_hN : 2 ≤ x.length) : ∀ i < x.length,
    (designU x y).getD i 0 = specSy x y i ∧
    (designV x y).getD i 0 = specSxy x y i := by
  intro i hi
  exact ⟨designU_getD_spec x y hlen i hi, designV_getD_spec x y hlen i hi⟩

/-- C3 (witness): the design-column characterization instantiated at
`x = [0,1,2]`, `y = [1,2,1]`. -/
theorem claimC3_witness :
    (([1, 2, 1] : List ℝ).length = ([0, 1, 2] : List ℝ).length ∧
      2 ≤ ([0, 1, 2] : List ℝ).length) ∧
    ∀ i < ([0, 1, 2] : List ℝ).length,
    (designU [0, 1, 2] [1, 2, 1]).getD i 0 = specSy [0, 1, 2] [1, 2, 1] i ∧
    (designV [0, 1, 2] [1, 2, 1]).getD i 0 = specSxy [0, 1, 2] [1, 2, 1] i :=
  ⟨⟨rfl, by norm_num⟩, claimC3_design_columns [0, 1, 2] [1, 2, 1] rfl (by norm_num)⟩

/-- C4: on the full-rank path `gauss_fit` returns
`mu = -A / B` and `sigma = sqrt(-1.0 / B)` (with non-finite propagation)
where `(A, B)` is the least-squares solution of the system with design
columns `[S_y, S_xy]` and target `y - y[0]`: `(A, B)` minimizes the squared
residual norm over all coefficient pairs. -/
theorem claimC4_lstsq_and_recovery (x y : List ℝ) (hlen : y.length = x.length)
    (hx : 1 ≤ x.length) (hd : detG x y ≠ 0) :
    (∃ amp : RF, gaussFit x y = some (amp,
        rfDiv (some (-(Aval x y))) (some (Bval x y)),
        rfSqrt (rfDiv (some (-1)) (some (Bval x y))))) ∧
    ∀ A' B' : ℝ, lsObj x y (Aval x y) (Bval x y) ≤ lsObj x y A' B' := by
  constructor
  · exact ⟨ampRF x y, by rw [gaussFit_full_rank x y hd]; rfl⟩
  · intro A' B'
    exact lsObj_min x y hlen hx hd A' B'

/-- C4 (witness): the least-squares recovery instantiated at
`x = [0,1,2,3]`, `y = [1,3,2,1]`. -/
theorem claimC4_witness :
    (([1, 3, 2, 1] : List ℝ).length = ([0, 1, 2, 3] : List ℝ).length ∧
      1 ≤ ([0, 1, 2, 3] : List ℝ).length ∧
      detG [0, 1, 2, 3] [1, 3, 2, 1] ≠ 0) ∧
    ((∃ amp : RF, gaussFit [0, 1, 2, 3] [1, 3, 2, 1] = some (amp,
        rfDiv (some (-(Aval [0, 1, 2, 3] [1, 3, 2, 1])))
          (some (Bval [0, 1, 2, 3] [1, 3, 2, 1])),
        rfSqrt (rfDiv (some (-1)) (some (Bval [0, 1, 2, 3] [1, 3, 2, 1]))))) ∧
    ∀ A' B' : ℝ, lsObj [0, 1, 2, 3] [1, 3, 2, 1]
        (Aval [0, 1, 2, 3] [1, 3, 2, 1]) (Bval [0, 1, 2, 3] [1, 3, 2, 1]) ≤
      lsObj [0, 1, 2, 3] [1, 3, 2, 1] A' B') := by
  have hd : detG [0, 1, 2, 3] [1, 3, 2, 1] ≠ 0 := by
    norm_num [detG, uuG, uvG, vvG, designU, designV, targetB, dotL, cumsumL,
      trapTerms, halfDiff, diffL, xyL, List.zipWith, List.tail]
  exact ⟨⟨rfl, by norm_num, hd⟩,
    claimC4_lstsq_and_recovery [0, 1, 2, 3] [1, 3, 2, 1] rfl (by norm_num) hd⟩

/-- C5: on the good path the amplitude returned by `gauss_fit` is
`a = (y · g) / (g · g)` for the trial curve `g` built from the recovered
`mu, sigma`, and this `a` minimizes the squared residual `‖y - c·g‖²` over
all scalars `c` (orthogonal projection onto the span of `g`). -/
theorem claimC5_amp_projection (x y : List ℝ) (hlen : y.length = x.length)
    (hd : detG x y ≠ 0) (hB : Bval x y < 0) (hx : x ≠ []) :
    gaussFit x y = some (some (ampVal x y), some (muVal x y), some (sigVal x y)) ∧
    ampVal x y = dotL y (gList x (muVal x y) (sigVal x y)) /
      dotL (gList x (muVal x y) (sigVal x y)) (gList x (muVal x y) (sigVal x y)) ∧
    ∀ c : ℝ, dotL (ampResid x y (ampVal x y)) (ampResid x y (ampVal x y)) ≤
      dotL (ampResid x y c) (ampResid x y c) := by
  refine ⟨gaussFit_good x y hd hB hx, rfl, ?_⟩
  intro c
  have hglen : y.length = (gList x (muVal x y) (sigVal x y)).length := by
    simp [gList, hlen]
  have hgne : gList x (muVal x y) (sigVal x y) ≠ [] := by simp [gList, hx]
  have hgpos : ∀ t ∈ gList x (muVal x y) (sigVal x y), 0 < t := by
    intro t ht
    rw [gList] at ht
    obtain ⟨s, _, rfl⟩ := List.mem_map.mp ht
    exact Real.exp_pos _
  have hgg : 0 < dotL (gList x (muVal x y) (sigVal x y))
      (gList x (muVal x y) (sigVal x y)) := dotL_self_pos _ hgne hgpos
  simp only [ampResid, ampVal]
  exact scale_err_min y _ hglen hgg c

/-- C5 (witness): the amplitude projection instantiated at
`x = [0,1,2,3]`, `y = [1,3,2,1]`. -/
theorem claimC5_witness :
    (([1, 3, 2, 1] : List ℝ).length = ([0, 1, 2, 3] : List ℝ).length ∧
      detG [0, 1, 2, 3] [1, 3, 2, 1] ≠ 0 ∧
      Bval [0, 1, 2, 3] [1, 3, 2, 1] < 0 ∧ ([0, 1, 2, 3] : List ℝ) ≠ []) ∧
    (gaussFit [0, 1, 2, 3] [1, 3, 2, 1] = some
        (some (ampVal [0, 1, 2, 3] [1, 3, 2, 1]),
          some (muVal [0, 1, 2, 3] [1, 3, 2, 1]),
          some (sigVal [0, 1, 2, 3] [1, 3, 2, 1])) ∧
      ampVal [0, 1, 2, 3] [1, 3, 2, 1] =
        dotL [1, 3, 2, 1] (gList [0, 1, 2, 3] (muVal [0, 1, 2, 3] [1, 3, 2, 1])
            (sigVal [0, 1, 2, 3] [1, 3, 2, 1])) /
          dotL (gList [0, 1, 2, 3] (muVal [0, 1, 2, 3] [1, 3, 2, 1])
            (sigVal [0, 1, 2, 3] [1, 3, 2, 1]))
            (gList [0, 1, 2, 3] (muVal [0, 1, 2, 3] [1, 3, 2, 1])
            (sigVal [0, 1, 2, 3] [1, 3, 2, 1])) ∧
      ∀ c : ℝ, dotL (ampResid [0, 1, 2, 3] [1, 3, 2, 1]
            (ampVal [0, 1, 2, 3] [1, 3, 2, 1]))
          (ampResid [0, 1, 2, 3] [1, 3, 2, 1] (ampVal [0, 1, 2, 3] [1, 3, 2, 1])) ≤
        dotL (ampResid [0, 1, 2, 3] [1, 3, 2, 1] c)
          (ampResid [0, 1, 2, 3] [1, 3, 2, 1] c)) := by
  have hd : detG [0, 1, 2, 3] [1, 3, 2, 1] ≠ 0 := by
    norm_num [detG, uuG, uvG, vvG, designU, designV, targetB, dotL, cumsumL,
      trapTerms, halfDiff, diffL, xyL, List.zipWith, List.tail]
  have hB : Bval [0, 1, 2, 3] [1, 3, 2, 1] < 0 := by
    norm_num [Bval, detG, uuG, uvG, vvG, ubG, vbG, designU, designV, targetB,
      dotL, cumsumL, trapTerms, halfDiff, diffL, xyL, List.zipWith, List.tail]
  exact ⟨⟨rfl, hd, hB, by simp⟩,
    claimC5_amp_projection [0, 1, 2, 3] [1, 3, 2, 1] rfl hd hB (by simp)⟩

/-- C7: `model(x, a, mu, sigma)` returns a list of the same length as `x`
whose `i`-th element is `a * exp(-0.5 * ((x_i - mu) / sigma)^2)`; it is a
pure function defined for all real inputs. -/
theorem claimC7_model_eval (x : List ℝ) (a mu sigma : ℝ) :
    (modelL x a mu sigma).length = x.length ∧
    ∀ i < x.length, (modelL x a mu sigma).getD i 0 =
      a * Real.exp (-0.5 * (((x.getD i 0 - mu) / sigma) ^ 2)) := by
  constructor
  · simp [modelL]
  · intro i hi
    rw [modelL, getD_map _ _ _ hi]

/-- C8 (counterexample): on `x = [0,1,2,3]`, `y = [1,3,2,1]` (strictly
increasing x) and the same data presented in descending order, both solves
are full rank with `B < 0`, yet the fitted means differ exactly
(`935/673` ascending versus `1649/1192` descending): the two orders solve
genuinely different least-squares problems, so the triples are not
identical. -/
theorem claimC8_counterexample :
    gaussFit ([0, 1, 2, 3] : List ℝ).reverse ([1, 3, 2, 1] : List ℝ).reverse ≠
      gaussFit [0, 1, 2, 3] [1, 3, 2, 1] := by
  intro h
  have hxr : ([0, 1, 2, 3] : List ℝ).reverse = [3, 2, 1, 0] := rfl
  have hyr : ([1, 3, 2, 1] : List ℝ).reverse = [1, 2, 3, 1] := rfl
  rw [hxr, hyr] at h
  have hd1 : detG [0, 1, 2, 3] [1, 3, 2, 1] ≠ 0 := by
    norm_num [detG, uuG, uvG, vvG, designU, designV, targetB, dotL, cumsumL,
      trapTerms, halfDiff, diffL, xyL, List.zipWith, List.tail]
  have hB1 : Bval [0, 1, 2, 3] [1, 3, 2, 1] < 0 := by
    norm_num [Bval, detG, uuG, uvG, vvG, ubG, vbG, designU, designV, targetB,
      dotL, cumsumL, trapTerms, halfDiff, diffL, xyL, List.zipWith, List.tail]
  have hd2 : detG [3, 2, 1, 0] [1, 2, 3, 1] ≠ 0 := by
    norm_num [detG, uuG, uvG, vvG, designU, designV, targetB, dotL, cumsumL,
      trapTerms, halfDiff, diffL, xyL, List.zipWith, List.tail]
  have hB2 : Bval [3, 2, 1, 0] [1, 2, 3, 1] < 0 := by
    norm_num [Bval, detG, uuG, uvG, vvG, ubG, vbG, designU, designV, targetB,
      dotL, cumsumL, trapTerms, halfDiff, diffL, xyL, List.zipWith, List.tail]
  have hmu1 : muVal [0, 1, 2, 3] [1, 3, 2, 1] = 935 / 673 := by
    norm_num [muVal, Aval, Bval, detG, uuG, uvG, vvG, ubG, vbG, designU, designV,
      targetB, dotL, cumsumL, trapTerms, halfDiff, diffL, xyL, List.zipWith,
      List.tail]
  have hmu2 : muVal [3, 2, 1, 0] [1, 2, 3, 1] = 1649 / 1192 := by
    norm_num [muVal, Aval, Bval, detG, uuG, uvG, vvG, ubG, vbG, designU, designV,
      targetB, dotL, cumsumL, trapTerms, halfDiff, diffL, xyL, List.zipWith,
      List.tail]
  rw [gaussFit_good _ _ hd1 hB1 (by simp), gaussFit_good _ _ hd2 hB2 (by simp),
    hmu1, hmu2] at h
  simp only [Option.some.injEq, Prod.mk.injEq] at h
  exact absurd h.2.1 (by norm_num)

/-- C8 (amended): order invariance holds exactly when the linearized system
is consistent (zero least-squares residual, e.g. noise-free exactly
determined data): then, provided both orders are full rank and `B < 0`,
fitting the reversed data returns the identical triple. For inconsistent
data the two orders genuinely differ (see the counterexample). -/
theorem claimC8_amended (x y : List ℝ) (hlen : y.length = x.length)
    (hx : x ≠ [])
    (hres : residL x y (Aval x y) (Bval x y) = List.replicate x.length (0 : ℝ))
    (hd : detG x y ≠ 0) (hd' : detG x.reverse y.reverse ≠ 0)
    (hB : Bval x y < 0) :
    gaussFit x.reverse y.reverse = gaussFit x y := by
  have hx1 : 1 ≤ x.length := by
    cases x with
    | nil => exact absurd rfl hx
    | cons a r => simp
  obtain ⟨hA2, hB2⟩ := cramer_reverse_eq x y hlen hx1 hres hd'
  have hBrev : Bval x.reverse y.reverse < 0 := by rw [hB2]; exact hB
  have hxrev : x.reverse ≠ [] := by simpa using hx
  rw [gaussFit_good x y hd hB hx, gaussFit_good x.reverse y.reverse hd' hBrev hxrev]
  have hmu : muVal x.reverse y.reverse = muVal x y := by
    rw [muVal, muVal, hA2, hB2]
  have hsig : sigVal x.reverse y.reverse = sigVal x y := by
    rw [sigVal, sigVal, hB2]
  have hglist : gList x.reverse (muVal x y) (sigVal x y) =
      (gList x (muVal x y) (sigVal x y)).reverse := by
    rw [gList, gList, List.map_reverse]
  have hamp : ampVal x.reverse y.reverse = ampVal x y := by
    rw [ampVal, ampVal, hmu, hsig, hglist,
      dotL_reverse _ _ (by simp [gList, hlen]), dotL_reverse _ _ rfl]
  rw [hmu, hsig, hamp]

/-- C8 (witness): the amended order invariance instantiated at the
exactly-solvable data `x = [0,1,2]`, `y = [1,2,1]` (residual is zero and
`B = -2 < 0`). -/
theorem claimC8_witness :
    (([1, 2, 1] : List ℝ).length = ([0, 1, 2] : List ℝ).length ∧
      ([0, 1, 2] : List ℝ) ≠ [] ∧
      residL [0, 1, 2] [1, 2, 1] (Aval [0, 1, 2] [1, 2, 1])
        (Bval [0, 1, 2] [1, 2, 1]) =
        List.replicate ([0, 1, 2] : List ℝ).length (0 : ℝ) ∧
      detG [0, 1, 2] [1, 2, 1] ≠ 0 ∧
      detG ([0, 1, 2] : List ℝ).reverse ([1, 2, 1] : List ℝ).reverse ≠ 0 ∧
      Bval [0, 1, 2] [1, 2, 1] < 0) ∧
    gaussFit ([0, 1, 2] : List ℝ).reverse ([1, 2, 1] : List ℝ).reverse =
      gaussFit [0, 1, 2] [1, 2, 1] := by
  have hA : Aval [0, 1, 2] [1, 2, 1] = 2 := by
    norm_num [Aval, detG, uuG, uvG, vvG, ubG, vbG, designU, designV, targetB,
      dotL, cumsumL, trapTerms, halfDiff, diffL, xyL, List.zipWith, List.tail]
  have hB : Bval [0, 1, 2] [1, 2, 1] = -2 := by
    norm_num [Bval, detG, uuG, uvG, vvG, ubG, vbG, designU, designV, targetB,
      dotL, cumsumL, trapTerms, halfDiff, diffL, xyL, List.zipWith, List.tail]
  have hres : residL [0, 1, 2] [1, 2, 1] (Aval [0, 1, 2] [1, 2, 1])
      (Bval [0, 1, 2] [1, 2, 1]) =
      List.replicate ([0, 1, 2] : List ℝ).length (0 : ℝ) := by
    rw [hA, hB]
    norm_num [residL, residGen, designU, designV, targetB, dotL, cumsumL,
      trapTerms, halfDiff, diffL, xyL, List.zipWith, List.tail, List.replicate]
  have hd : detG [0, 1, 2] [1, 2, 1] ≠ 0 := by
    norm_num [detG, uuG, uvG, vvG, designU, designV, targetB, dotL, cumsumL,
      trapTerms, halfDiff, diffL, xyL, List.zipWith, List.tail]
  have hd' : detG ([0, 1, 2] : List ℝ).reverse ([1, 2, 1] : List ℝ).reverse ≠ 0 := by
    have hxr : ([0, 1, 2] : List ℝ).reverse = [2, 1, 0] := rfl
    have hyr : ([1, 2, 1] : List ℝ).reverse = [1, 2, 1] := rfl
    rw [hxr, hyr]
    norm_num [detG, uuG, uvG, vvG, designU, designV, targetB, dotL, cumsumL,
      trapTerms, halfDiff, diffL, xyL, List.zipWith, List.tail]
  exact ⟨⟨rfl, by simp, hres, hd, hd', by rw [hB]; norm_num⟩,
    claimC8_amended [0, 1, 2] [1, 2, 1] rfl (by simp) hres hd hd'
      (by rw [hB]; norm_num)⟩

/-- C10: scaling the ordinates by a nonzero constant `c` rescales only the
amplitude: on the good path, `gauss_fit(x, c*y)` returns
`(c*a, mu, sigma)` where `gauss_fit(x, y)` returns `(a, mu, sigma)`. -/
theorem claimC10_scale_invariance (x y : List ℝ) (c : ℝ) (hc : c ≠ 0)
    (hd : detG x y ≠ 0) (hB : Bval x y < 0) (hx : x ≠ []) :
    gaussFit x (y.map (fun t => c * t)) =
      some (some (c * ampVal x y), some (muVal x y), some (sigVal x y)) ∧
    gaussFit x y =
      some (some (ampVal x y), some (muVal x y), some (sigVal x y)) := by
  have hA' := Aval_map_mul c hc x y hd
  have hB' := Bval_map_mul c hc x y hd
  have hd' : detG x (y.map (fun t => c * t)) ≠ 0 := by
    rw [detG_map_mul]
    exact mul_ne_zero (pow_ne_zero 4 hc) hd
  have hBneg : Bval x (y.map (fun t => c * t)) < 0 := by rw [hB']; exact hB
  have hmu : muVal x (y.map (fun t => c * t)) = muVal x y := by
    rw [muVal, muVal, hA', hB']
  have hsig : sigVal x (y.map (fun t => c * t)) = sigVal x y := by
    rw [sigVal, sigVal, hB']
  have hamp : ampVal x (y.map (fun t => c * t)) = c * ampVal x y := by
    rw [ampVal, ampVal, hmu, hsig, dotL_map_mul_left, mul_div_assoc]
  constructor
  · rw [gaussFit_good _ _ hd' hBneg hx, hmu, hsig, hamp]
  · exact gaussFit_good x y hd hB hx

/-- C10 (witness): amplitude scaling instantiated at `x = [0,1,2,3]`,
`y = [1,3,2,1]`, `c = 2`. -/
theorem claimC10_witness :
    ((2 : ℝ) ≠ 0 ∧ detG [0, 1, 2, 3] [1, 3, 2, 1] ≠ 0 ∧
      Bval [0, 1, 2, 3] [1, 3, 2, 1] < 0 ∧ ([0, 1, 2, 3] : List ℝ) ≠ []) ∧
    (gaussFit [0, 1, 2, 3] (([1, 3, 2, 1] : List ℝ).map (fun t => 2 * t)) =
      some (some (2 * ampVal [0, 1, 2, 3] [1, 3, 2, 1]),
        some (muVal [0, 1, 2, 3] [1, 3, 2, 1]),
        some (sigVal [0, 1, 2, 3] [1, 3, 2, 1])) ∧
    gaussFit [0, 1, 2, 3] [1, 3, 2, 1] =
      some (some (ampVal [0, 1, 2, 3] [1, 3, 2, 1]),
        some (muVal [0, 1, 2, 3] [1, 3, 2, 1]),
        some (sigVal [0, 1, 2, 3] [1, 3, 2, 1]))) := by
  have hd : detG [0, 1, 2, 3] [1, 3, 2, 1] ≠ 0 := by
    norm_num [detG, uuG, uvG, vvG, designU, designV, targetB, dotL, cumsumL,
      trapTerms, halfDiff, diffL, xyL, List.zipWith, List.tail]
  have hB : Bval [0, 1, 2, 3] [1, 3, 2, 1] < 0 := by
    norm_num [Bval, detG, uuG, uvG, vvG, ubG, vbG, designU, designV, targetB,
      dotL, cumsumL, trapTerms, halfDiff, diffL, xyL, List.zipWith, List.tail]
  exact ⟨⟨by norm_num, hd, hB, by simp⟩,
    claimC10_scale_invariance [0, 1, 2, 3] [1, 3, 2, 1] 2 (by norm_num) hd hB
      (by simp)⟩

end SkgGauss
